import Mathlib

/-
Verification of the PCA pipeline of src/Part_06.ipynb.

The notebook loads a dataset into a matrix X (features × samples), computes
the economy-size SVD through the external linear-algebra routine
LA.svd(X, full_matrices=False), selects columns of U by Python slicing
(P = U[:, a:b]) and projects the data (R = P.T @ X).

Two embeddings are used below:
* a fully executable row-major `List (List ℚ)` layer for the code that is in
  the notebook itself (slicing, transposition, matrix product, ingestion);
* a `Matrix (Fin d) (Fin m) ℝ` layer for the SVD Engine, whose numerical
  routine lives in the external library and is therefore modelled from the
  spec contract.
-/

namespace CDS

/-- Dot product of two equal-length lists of rationals; the scalar product
underlying the numpy matrix product used in src/Part_06.ipynb. -/
def dot (u v : List ℚ) : ℚ :=
  (List.zipWith (· * ·) u v).sum

/-- Transpose of a row-major matrix, as performed by the numpy attribute T
in cells 14, 31, 44 of src/Part_06.ipynb.  On a nonempty rectangular matrix
this is the usual transpose: row j of the result is column j of the input. -/
def transposeL (A : List (List ℚ)) : List (List ℚ) :=
  match A with
  | [] => []
  | row :: _ => (List.range row.length).map (fun j => A.map (fun r => r.getD j 0))

/-- Matrix product A @ B (numpy matmul, cells 31, 35, 47, 49):
entry (i, j) is the dot product of row i of A with column j of B. -/
def matmul (A B : List (List ℚ)) : List (List ℚ) :=
  A.map (fun row => (transposeL B).map (fun col => dot row col))

/-- Column j of a row-major matrix (entries default to 0 outside a row). -/
def colD (A : List (List ℚ)) (j : ℕ) : List ℚ :=
  A.map (fun r => r.getD j 0)

/-- Matrix–vector product: the linear map represented by A applied to v. -/
def matVec (A : List (List ℚ)) (v : List ℚ) : List ℚ :=
  A.map (fun r => dot r v)

/-- Well-formedness: A is a d × m row-major matrix. -/
def WF (A : List (List ℚ)) (d m : ℕ) : Prop :=
  A.length = d ∧ ∀ r ∈ A, r.length = m

instance (A : List (List ℚ)) (d m : ℕ) : Decidable (WF A d m) :=
  inferInstanceAs (Decidable (A.length = d ∧ ∀ r ∈ A, r.length = m))

/-- Number of columns of a row-major matrix (length of its first row). -/
def numCols (A : List (List ℚ)) : ℕ :=
  (A.headD []).length

/-- Python column slice A[:, a:b] with nonnegative bounds, exactly as numpy
basic slicing behaves: each row is cut to the index window [a, b), and an
upper bound past the end of the row is silently clamped, never an error. -/
def colSlice (A : List (List ℚ)) (a b : ℕ) : List (List ℚ) :=
  A.map (fun row => (row.drop a).take (b - a))

/-- Component Selector of the pipeline: P = U[:, a:b]
(cells 29, 35, 47, 49 of src/Part_06.ipynb). -/
def componentSelector (U : List (List ℚ)) (a b : ℕ) : List (List ℚ) :=
  colSlice U a b

/-- Projector of the pipeline: R = P.T @ X
(cells 31, 35, 47, 49 of src/Part_06.ipynb). -/
def projector (P X : List (List ℚ)) : List (List ℚ) :=
  matmul (transposeL P) X

/-- Matrix ingestion: X = dataset.iloc[:, lo:hi].values.T
(cells 14 and 44 of src/Part_06.ipynb): a column window of the tabular data,
transposed so that samples are columns. -/
def ingest (ds : List (List ℚ)) (lo hi : ℕ) : List (List ℚ) :=
  transposeL (colSlice ds lo hi)

/-- Feature centering (mean subtraction along each row of X).  This operation
is NOT performed anywhere in src/Part_06.ipynb; it is defined here only to
state that the pipeline does not apply it. -/
def center (X : List (List ℚ)) : List (List ℚ) :=
  X.map (fun row => row.map (fun x => x - row.sum / (row.length : ℚ)))

/-- The deterministic part of the flow of src/Part_06.ipynb around the SVD:
ingest the dataset, select components from U by slicing, and project.  U is a
parameter because it is produced by the external SVD routine. -/
def pcaProject (ds : List (List ℚ)) (lo hi : ℕ) (U : List (List ℚ)) (a b : ℕ) :
    List (List ℚ) :=
  projector (componentSelector U a b) (ingest ds lo hi)

/-- A concrete orthonormal 2 × 2 matrix (r = 2), used to exercise the
out-of-range slice U[:, 7:9] of cell 35 on a small U. -/
def uId2 : List (List ℚ) := [[1, 0], [0, 1]]

/-- A concrete 2 × 2 data matrix. -/
def xEx2 : List (List ℚ) := [[1, 2], [3, 4]]

/-- A concrete 2 × 2 tabular dataset (rows are samples). -/
def dsEx : List (List ℚ) := [[1, 0], [3, 2]]

/-- A concrete 2 × 1 left-factor whose single column is the first basis
vector. -/
def uEx : List (List ℚ) := [[1], [0]]

/-- A concrete 2 × 1 projection basis. -/
def pEx : List (List ℚ) := [[1], [0]]

/-- A floating-point style scalar: either a finite real number or one of the
non-finite IEEE values (NaN, plus or minus infinity).  Entries of the matrix
handed to the SVD Engine have this type, so that the finiteness check of the
engine contract can be stated. -/
inductive RVal where
  | fin (x : ℝ)
  | nan
  | posInf
  | negInf

/-- Whether a scalar is finite. -/
def RVal.isFinite : RVal → Bool
  | RVal.fin _ => true
  | _ => false

/-- The real value of a finite scalar (non-finite values are mapped to the
junk value 0; the engine only reads this field after the finiteness check). -/
def RVal.val : RVal → ℝ
  | RVal.fin x => x
  | _ => 0

/-- The error kinds of the pipeline, as laid out in the spec. -/
inductive PCAError where
  | invalidInputError
  | indexOutOfRangeError
  | decompositionFailureError

/-- An economy-size SVD triple for a d × m matrix with r retained components:
U is d × r, s holds r singular values, Vh is r × m. -/
structure SVDTriple (d m r : ℕ) where
  U : Matrix (Fin d) (Fin r) ℝ
  s : Fin r → ℝ
  Vh : Matrix (Fin r) (Fin m) ℝ

/-- The shape of the left factor U carried by an SVD triple. -/
def SVDTriple.uShape {d m r : ℕ} (_ : SVDTriple d m r) : ℕ × ℕ := (d, r)

/-- The length of the singular-value vector carried by an SVD triple. -/
def SVDTriple.sLength {d m r : ℕ} (_ : SVDTriple d m r) : ℕ := r

/-- The shape of the right factor Vh carried by an SVD triple. -/
def SVDTriple.vhShape {d m r : ℕ} (_ : SVDTriple d m r) : ℕ × ℕ := (r, m)

/-- The real matrix obtained from the raw engine input by reading the finite
values of its entries. -/
def svdInput {d m : ℕ} (X : Matrix (Fin d) (Fin m) RVal) :
    Matrix (Fin d) (Fin m) ℝ :=
  Matrix.of fun i j => (X i j).val

/-- Modelled from the spec: the SVD Engine.  The numerical decomposition
routine itself is the external library call LA.svd(X, full_matrices=False)
of cells 23 and 46 of src/Part_06.ipynb and is not part of the repository
source, so it enters the model as the parameter decomp, whose type records
the economy form fixed by full_matrices=False: for a d × m input exactly
r = min d m components are produced.  Following the spec contract, the
engine rejects a zero dimension or a non-finite entry with
InvalidInputError and otherwise returns the decomposition of the input. -/
def svdEngine {d m : ℕ}
    (decomp : Matrix (Fin d) (Fin m) ℝ → SVDTriple d m (min d m))
    (X : Matrix (Fin d) (Fin m) RVal) :
    Except PCAError (SVDTriple d m (min d m)) :=
  if 0 < d ∧ 0 < m then
    if ∀ i j, (X i j).isFinite = true then
      Except.ok (decomp (svdInput X))
    else
      Except.error PCAError.invalidInputError
  else
    Except.error PCAError.invalidInputError

/-- Modelled from the spec: the contract of the external economy-size SVD
routine — nonnegative singular values sorted in descending order, factors
orthonormal on their short axes, and exact reconstruction of the input. -/
def IsEconomySVD {d m : ℕ} (A : Matrix (Fin d) (Fin m) ℝ)
    (T : SVDTriple d m (min d m)) : Prop :=
  (∀ i, 0 ≤ T.s i) ∧
  (∀ i j : Fin (min d m), (i : ℕ) ≤ (j : ℕ) → T.s j ≤ T.s i) ∧
  T.U.transpose * T.U = 1 ∧
  T.Vh * T.Vh.transpose = 1 ∧
  A = T.U * Matrix.diagonal T.s * T.Vh

/-- The squared Frobenius norm of a real matrix: the sum of the squared
entries. -/
noncomputable def frobSq {a b : ℕ} (A : Matrix (Fin a) (Fin b) ℝ) : ℝ :=
  ∑ i, ∑ j, (A i j) ^ 2

/-- The Frobenius norm of a real matrix: the square root of the sum of the
squared entries (the norm used by the numerical properties of the spec). -/
noncomputable def frobeniusNorm {d m : ℕ} (A : Matrix (Fin d) (Fin m) ℝ) : ℝ :=
  Real.sqrt (frobSq A)

/-- The rank-k truncation of an SVD triple: the singular values of index k
and beyond are zeroed out before reassembling the factors. -/
noncomputable def truncTriple {d m : ℕ} (T : SVDTriple d m (min d m))
    (k : ℕ) : Matrix (Fin d) (Fin m) ℝ :=
  T.U * Matrix.diagonal (fun i : Fin (min d m) =>
    if (i : ℕ) < k then T.s i else 0) * T.Vh

/-- A concrete 1 × 1 engine input with the single finite entry 2. -/
def rval2 : Matrix (Fin 1) (Fin 1) RVal := fun _ _ => RVal.fin 2

/-- A concrete 1 × 1 engine input whose single entry is NaN. -/
def rvalNan : Matrix (Fin 1) (Fin 1) RVal := fun _ _ => RVal.nan

/-- A concrete 1 × 2 engine input with finite entries. -/
def rvalOnes12 : Matrix (Fin 1) (Fin 2) RVal := fun _ _ => RVal.fin 1

/-- The exact economy SVD triple of the 1 × 1 matrix with entry 2. -/
def triv1 : SVDTriple 1 1 1 := ⟨1, fun _ => 2, 1⟩

/-- A concrete decomposition routine for 1 × 1 inputs, returning triv1. -/
def decomp2 : Matrix (Fin 1) (Fin 1) ℝ → SVDTriple 1 1 (min 1 1) :=
  fun _ => triv1

/-- A concrete decomposition routine for 1 × 2 inputs (the zero triple: C1
is a statement about shapes only, so any routine of the right type fits). -/
def decompA : Matrix (Fin 1) (Fin 2) ℝ → SVDTriple 1 2 (min 1 2) :=
  fun _ => ⟨0, fun _ => 0, 0⟩

theorem WF_transposeL {A : List (List ℚ)} {d m : ℕ} (hd : 0 < d)
    (h : WF A d m) : WF (transposeL A) m d := by
  obtain ⟨hlen, hrows⟩ := h
  cases A with
  | nil => simp at hlen; omega
  | cons row rest =>
    have hrow : row.length = m := hrows row (List.mem_cons_self _ _)
    constructor
    · simp [transposeL, hrow]
    · intro col hcol
      simp only [transposeL, List.mem_map] at hcol
      obtain ⟨j, _, rfl⟩ := hcol
      simpa using hlen

theorem transposeL_getD {B : List (List ℚ)} {d m j : ℕ} (hd : 0 < d)
    (hB : WF B d m) (hj : j < m) : (transposeL B).getD j [] = colD B j := by
  obtain ⟨hlen, hrows⟩ := hB
  cases B with
  | nil => simp at hlen; omega
  | cons row rest =>
    have hrow : row.length = m := hrows row (List.mem_cons_self _ _)
    have hj2 : j < ((List.range row.length).map
        (fun j => (row :: rest).map (fun r => r.getD j 0))).length := by
      simpa [hrow] using hj
    show ((List.range row.length).map
        (fun j => (row :: rest).map (fun r => r.getD j 0))).getD j [] = _
    rw [List.getD_eq_getElem _ _ hj2]
    simp [colD]

theorem WF_colSlice {A : List (List ℚ)} {d r : ℕ} (h : WF A d r) (a b : ℕ) :
    WF (colSlice A a b) d (min b r - min a r) := by
  obtain ⟨hlen, hrows⟩ := h
  constructor
  · simp [colSlice, hlen]
  · intro row hrow
    simp only [colSlice, List.mem_map] at hrow
    obtain ⟨row0, hmem, rfl⟩ := hrow
    have h0 := hrows row0 hmem
    simp only [List.length_take, List.length_drop, h0]
    omega

theorem WF_matmul {A B : List (List ℚ)} {k d m : ℕ} (hd : 0 < d)
    (hA : WF A k d) (hB : WF B d m) : WF (matmul A B) k m := by
  have ht := WF_transposeL hd hB
  constructor
  · simp [matmul, hA.1]
  · intro row hrow
    simp only [matmul, List.mem_map] at hrow
    obtain ⟨row0, hmem, rfl⟩ := hrow
    simp [ht.1]

theorem colD_matmul {A B : List (List ℚ)} {d m j : ℕ} (hd : 0 < d)
    (hB : WF B d m) (hj : j < m) :
    colD (matmul A B) j = matVec A (colD B j) := by
  have ht := WF_transposeL hd hB
  unfold colD matmul matVec
  rw [List.map_map]
  refine List.map_congr_left ?_
  intro row hrow
  have hj2 : j < ((transposeL B).map (fun col => dot row col)).length := by
    simpa [ht.1] using hj
  have hj3 : j < (transposeL B).length := by
    simpa [ht.1] using hj
  simp only [Function.comp_apply]
  rw [List.getD_eq_getElem _ _ hj2, List.getElem_map]
  have hcol : (transposeL B)[j] = colD B j := by
    rw [← List.getD_eq_getElem _ [] hj3]
    exact transposeL_getD hd hB hj
  rw [hcol]
  rfl

/-- Claim C5: for every projection basis P of shape d × k and every data
matrix X of shape d × m (d positive), the Projector returns R = P.T @ X of
shape k × m, and each column of R is the image of the corresponding column
of X under the linear map represented by P.T. -/
theorem c5_projector_shape_and_columns (d k m : ℕ) (P X : List (List ℚ))
    (hd : 0 < d) (hP : WF P d k) (hX : WF X d m) :
    WF (projector P X) k m ∧
    ∀ j, j < m → colD (projector P X) j = matVec (transposeL P) (colD X j) := by
  have htP := WF_transposeL hd hP
  constructor
  · exact WF_matmul hd htP hX
  · intro j hj
    exact colD_matmul hd hX hj

/-- Witness for C5 at a concrete 2 × 1 basis and 2 × 2 data matrix. -/
theorem c5_projector_shape_and_columns_witness :
    WF (projector pEx xEx2) 1 2 ∧
    ∀ j, j < 2 →
      colD (projector pEx xEx2) j = matVec (transposeL pEx) (colD xEx2 j) :=
  c5_projector_shape_and_columns 2 1 2 pEx xEx2 (by decide) (by decide)
    (by decide)

/-- Counterexample to claim C2 as stated: uId2 is a well-formed orthonormal
2 × 2 matrix (so r = 2) and the slice bounds 7:9 lie entirely outside
[0, 2), yet the Component Selector does not fail with any error: it returns
the (empty-column) projection basis [[], []]. -/
theorem c2_counterexample :
    WF uId2 2 2 ∧ componentSelector uId2 7 9 = [[], []] := by
  decide

/-- Claim C2 as amended: for every U of shape d × r and slice bounds a:b
with b out of range (r < b), the Component Selector does not fail: it
silently clamps the bounds and returns a well-formed projection basis with
min b r - min a r columns. -/
theorem c2_amended_selector_clamps (d r : ℕ) (U : List (List ℚ)) (a b : ℕ)
    (hU : WF U d r) (hb : r < b) :
    WF (componentSelector U a b) d (min b r - min a r) :=
  WF_colSlice hU a b

/-- Witness for the amended C2 at the concrete out-of-range slice 7:9 of a
2 × 2 matrix. -/
theorem c2_amended_selector_clamps_witness :
    WF (componentSelector uId2 7 9) 2 (min 9 2 - min 7 2) :=
  c2_amended_selector_clamps 2 2 uId2 7 9 (by decide) (by decide)

/-- Claim C10: component selection is a slice, so an upper bound b past the
number r of columns of U is silently clamped: the selected basis is
well-formed with min b r - min a r columns (which is max 0 (min b r - a)
for nonnegative bounds), no error of any kind is raised, and the subsequent
projection R = P.T @ X succeeds with that many rows. -/
theorem c10_slice_clamps_and_projects (d r m : ℕ) (U X : List (List ℚ))
    (a b : ℕ) (hd : 0 < d) (hU : WF U d r) (hX : WF X d m) :
    WF (componentSelector U a b) d (min b r - min a r) ∧
    numCols (componentSelector U a b) = min b r - min a r ∧
    WF (projector (componentSelector U a b) X) (min b r - min a r) m := by
  have hsel : WF (componentSelector U a b) d (min b r - min a r) :=
    WF_colSlice hU a b
  refine ⟨hsel, ?_, WF_matmul hd (WF_transposeL hd hsel) hX⟩
  obtain ⟨hlen, hrows⟩ := hsel
  cases hc : componentSelector U a b with
  | nil => rw [hc] at hlen; simp at hlen; omega
  | cons row rest =>
    rw [hc] at hrows
    have h0 := hrows row (List.mem_cons_self _ _)
    simp [numCols, hc, h0]

/-- Witness for C10: slicing columns 7:9 out of a U with only 2 columns
yields an empty basis and the projection still goes through. -/
theorem c10_slice_clamps_and_projects_witness :
    WF (componentSelector uId2 7 9) 2 (min 9 2 - min 7 2) ∧
    numCols (componentSelector uId2 7 9) = min 9 2 - min 7 2 ∧
    WF (projector (componentSelector uId2 7 9) xEx2) (min 9 2 - min 7 2) 2 :=
  c10_slice_clamps_and_projects 2 2 2 uId2 xEx2 7 9 (by decide) (by decide)
    (by decide)

/-- Claim C9: the pipeline applies no centering or normalization at any
stage: the matrix that is projected is the raw ingested X, so R equals P.T
times the uncentered data exactly — and this is not vacuous, since running
the projection on mean-centered data gives a different result on a concrete
dataset. -/
theorem c9_no_centering :
    (∀ (ds U : List (List ℚ)) (lo hi a b : ℕ),
      pcaProject ds lo hi U a b =
        matmul (transposeL (componentSelector U a b)) (ingest ds lo hi)) ∧
    pcaProject dsEx 0 2 uEx 0 1 ≠
      matmul (transposeL (componentSelector uEx 0 1)) (center (ingest dsEx 0 2)) := by
  constructor
  · intro ds U lo hi a b
    rfl
  · norm_num [pcaProject, projector, componentSelector, colSlice, ingest,
      transposeL, matmul, dot, colD, center, dsEx, uEx, List.range_succ]

theorem svdEngine_ok_inv {d m : ℕ}
    {decomp : Matrix (Fin d) (Fin m) ℝ → SVDTriple d m (min d m)}
    {X : Matrix (Fin d) (Fin m) RVal} {T : SVDTriple d m (min d m)}
    (hok : svdEngine decomp X = Except.ok T) : T = decomp (svdInput X) := by
  unfold svdEngine at hok
  split at hok
  · split at hok
    · exact (Except.ok.inj hok).symm
    · simp at hok
  · simp at hok

theorem svdEngine_ok_of_valid {d m : ℕ}
    (decomp : Matrix (Fin d) (Fin m) ℝ → SVDTriple d m (min d m))
    (X : Matrix (Fin d) (Fin m) RVal) (hd : 0 < d) (hm : 0 < m)
    (hfin : ∀ i j, (X i j).isFinite = true) :
    svdEngine decomp X = Except.ok (decomp (svdInput X)) := by
  unfold svdEngine
  rw [if_pos ⟨hd, hm⟩, if_pos hfin]

theorem frobeniusNorm_nonneg {d m : ℕ} (A : Matrix (Fin d) (Fin m) ℝ) :
    0 ≤ frobeniusNorm A :=
  Real.sqrt_nonneg _

theorem frobeniusNorm_zero {d m : ℕ} :
    frobeniusNorm (0 : Matrix (Fin d) (Fin m) ℝ) = 0 := by
  simp [frobeniusNorm, frobSq]

theorem frobSq_eq_trace {a b : ℕ} (A : Matrix (Fin a) (Fin b) ℝ) :
    frobSq A = Matrix.trace (A.transpose * A) := by
  unfold frobSq
  simp only [Matrix.trace, Matrix.diag_apply, Matrix.mul_apply,
    Matrix.transpose_apply, sq]
  exact Finset.sum_comm

theorem frobSq_nonneg {a b : ℕ} (A : Matrix (Fin a) (Fin b) ℝ) :
    0 ≤ frobSq A := by
  unfold frobSq
  positivity

theorem frobeniusNorm_mono {a b : ℕ} {A B : Matrix (Fin a) (Fin b) ℝ}
    (h : frobSq A ≤ frobSq B) : frobeniusNorm A ≤ frobeniusNorm B :=
  Real.sqrt_le_sqrt h

theorem frobSq_unitary_conj {d m r : ℕ} (U : Matrix (Fin d) (Fin r) ℝ)
    (M : Matrix (Fin r) (Fin r) ℝ) (Vh : Matrix (Fin r) (Fin m) ℝ)
    (hU : U.transpose * U = 1) (hV : Vh * Vh.transpose = 1) :
    frobSq (U * M * Vh) = frobSq M := by
  rw [frobSq_eq_trace, frobSq_eq_trace]
  have hUU : U.transpose * (U * (M * Vh)) = M * Vh := by
    rw [← Matrix.mul_assoc, hU, Matrix.one_mul]
  have h1 : (U * M * Vh).transpose * (U * M * Vh)
      = Vh.transpose * (M.transpose * (M * Vh)) := by
    simp only [Matrix.transpose_mul, Matrix.mul_assoc, hUU]
  rw [h1, Matrix.trace_mul_comm]
  rw [Matrix.mul_assoc M.transpose (M * Vh) Vh.transpose]
  rw [Matrix.mul_assoc M Vh Vh.transpose, hV, Matrix.mul_one]

theorem frobSq_diagonal {r : ℕ} (f : Fin r → ℝ) :
    frobSq (Matrix.diagonal f) = ∑ i, f i ^ 2 := by
  unfold frobSq
  refine Finset.sum_congr rfl fun i _ => ?_
  simp [Matrix.diagonal_apply, apply_ite (fun x : ℝ => x ^ 2),
    Finset.sum_ite_eq]

theorem frobSq_sub_trunc {d m : ℕ} (T : SVDTriple d m (min d m))
    (A : Matrix (Fin d) (Fin m) ℝ) (k : ℕ)
    (hU : T.U.transpose * T.U = 1) (hV : T.Vh * T.Vh.transpose = 1)
    (hrec : A = T.U * Matrix.diagonal T.s * T.Vh) :
    frobSq (A - truncTriple T k) =
      ∑ i : Fin (min d m), (if (i : ℕ) < k then 0 else T.s i) ^ 2 := by
  have hdiff : A - truncTriple T k
      = T.U * Matrix.diagonal (fun i : Fin (min d m) =>
          if (i : ℕ) < k then 0 else T.s i) * T.Vh := by
    rw [hrec]
    unfold truncTriple
    rw [← Matrix.sub_mul, ← Matrix.mul_sub, Matrix.diagonal_sub]
    have hfun : (fun i : Fin (min d m) =>
          T.s i - if (i : ℕ) < k then T.s i else 0)
        = fun i : Fin (min d m) => if (i : ℕ) < k then 0 else T.s i := by
      funext i
      by_cases hi : (i : ℕ) < k
      · simp [hi]
      · simp [hi]
    rw [hfun]
  rw [hdiff, frobSq_unitary_conj _ _ _ hU hV, frobSq_diagonal]

theorem frobSq_add_cross {a b : ℕ} (E F : Matrix (Fin a) (Fin b) ℝ) :
    frobSq (E + F)
      = frobSq E + 2 * Matrix.trace (E.transpose * F) + frobSq F := by
  rw [frobSq_eq_trace, frobSq_eq_trace, frobSq_eq_trace]
  rw [Matrix.transpose_add, Matrix.add_mul, Matrix.mul_add, Matrix.mul_add,
    Matrix.trace_add, Matrix.trace_add, Matrix.trace_add]
  have hsym : Matrix.trace (F.transpose * E)
      = Matrix.trace (E.transpose * F) := by
    rw [← Matrix.trace_transpose (F.transpose * E), Matrix.transpose_mul,
      Matrix.transpose_transpose]
  rw [hsym]
  ring

theorem frobSq_pythagoras {d k m : ℕ} (X : Matrix (Fin d) (Fin m) ℝ)
    (P : Matrix (Fin d) (Fin k) ℝ) (C : Matrix (Fin k) (Fin m) ℝ)
    (hP : P.transpose * P = 1) :
    frobSq (X - P * C) =
      frobSq (X - P * (P.transpose * X))
        + frobSq (P * (P.transpose * X - C)) := by
  have hPc : ∀ {q : ℕ} (M : Matrix (Fin k) (Fin q) ℝ),
      P.transpose * (P * M) = M := by
    intro q M
    rw [← Matrix.mul_assoc, hP, Matrix.one_mul]
  have hsum : X - P * C
      = (X - P * (P.transpose * X)) + (P * (P.transpose * X - C)) := by
    rw [Matrix.mul_sub]
    abel
  rw [hsum, frobSq_add_cross]
  have hzero : (X - P * (P.transpose * X)).transpose
      * (P * (P.transpose * X - C)) = 0 := by
    simp only [Matrix.transpose_sub, Matrix.sub_mul, Matrix.mul_sub,
      Matrix.transpose_mul, Matrix.transpose_transpose, Matrix.mul_assoc,
      hPc]
    abel
  rw [hzero, Matrix.trace_zero]
  ring

theorem frobSq_sub_proj {d k m : ℕ} (X : Matrix (Fin d) (Fin m) ℝ)
    (P : Matrix (Fin d) (Fin k) ℝ) (hP : P.transpose * P = 1) :
    frobSq (X - P * (P.transpose * X))
      = frobSq X - frobSq (P.transpose * X) := by
  have hPc : ∀ {q : ℕ} (M : Matrix (Fin k) (Fin q) ℝ),
      P.transpose * (P * M) = M := by
    intro q M
    rw [← Matrix.mul_assoc, hP, Matrix.one_mul]
  rw [frobSq_eq_trace, frobSq_eq_trace, frobSq_eq_trace]
  have hexp : (X - P * (P.transpose * X)).transpose
      * (X - P * (P.transpose * X))
      = X.transpose * X - (P.transpose * X).transpose * (P.transpose * X) := by
    simp only [Matrix.transpose_sub, Matrix.sub_mul, Matrix.mul_sub,
      Matrix.transpose_mul, Matrix.transpose_transpose, Matrix.mul_assoc,
      hPc]
    abel
  rw [hexp, Matrix.trace_sub]

theorem contraction_diag_le_one {a b c : ℕ} (W : Matrix (Fin a) (Fin b) ℝ)
    (Q : Matrix (Fin a) (Fin c) ℝ) (hQ : Q.transpose * Q = 1) (i : Fin b)
    (hW : (W.transpose * W) i i = 1) :
    ((W.transpose * Q) * (Q.transpose * W)) i i ≤ 1 := by
  have hQc : ∀ {q : ℕ} (M : Matrix (Fin c) (Fin q) ℝ),
      Q.transpose * (Q * M) = M := by
    intro q M
    rw [← Matrix.mul_assoc, hQ, Matrix.one_mul]
  have hG : (W - Q * (Q.transpose * W)).transpose
      * (W - Q * (Q.transpose * W))
      = W.transpose * W - W.transpose * (Q * (Q.transpose * W)) := by
    simp only [Matrix.transpose_sub, Matrix.sub_mul, Matrix.mul_sub,
      Matrix.transpose_mul, Matrix.transpose_transpose, Matrix.mul_assoc,
      hQc]
    abel
  have hGE : 0 ≤ ((W - Q * (Q.transpose * W)).transpose
      * (W - Q * (Q.transpose * W))) i i := by
    rw [Matrix.mul_apply]
    apply Finset.sum_nonneg
    intro l _
    rw [Matrix.transpose_apply]
    exact mul_self_nonneg _
  rw [hG, Matrix.sub_apply, hW] at hGE
  have hassoc : (W.transpose * Q) * (Q.transpose * W)
      = W.transpose * (Q * (Q.transpose * W)) := by
    rw [Matrix.mul_assoc]
  rw [hassoc]
  linarith

theorem contraction_diag_nonneg {a b c : ℕ} (W : Matrix (Fin a) (Fin b) ℝ)
    (Q : Matrix (Fin a) (Fin c) ℝ) (i : Fin b) :
    0 ≤ ((W.transpose * Q) * (Q.transpose * W)) i i := by
  rw [Matrix.mul_apply]
  apply Finset.sum_nonneg
  intro j _
  have hsymm : (Q.transpose * W) j i = (W.transpose * Q) i j := by
    rw [Matrix.mul_apply, Matrix.mul_apply]
    refine Finset.sum_congr rfl fun l _ => ?_
    rw [Matrix.transpose_apply, Matrix.transpose_apply]
    ring
  rw [hsymm]
  exact mul_self_nonneg _

theorem contraction_trace_le {d r k : ℕ} (U : Matrix (Fin d) (Fin r) ℝ)
    (P : Matrix (Fin d) (Fin k) ℝ) (hU : U.transpose * U = 1)
    (hP : P.transpose * P = 1) :
    Matrix.trace ((U.transpose * P) * (P.transpose * U)) ≤ (k : ℝ) := by
  rw [Matrix.trace_mul_comm, Matrix.trace]
  calc ∑ j, ((P.transpose * U) * (U.transpose * P)).diag j
      ≤ ∑ _j : Fin k, (1 : ℝ) := by
        apply Finset.sum_le_sum
        intro j _
        exact contraction_diag_le_one P U hU j
          (by rw [hP]; exact Matrix.one_apply_eq j)
    _ = (k : ℝ) := by simp

theorem count_front {r k : ℕ} (hk : k < r) :
    (∑ i : Fin r, if (i : ℕ) < k then (1 : ℝ) else 0) = k := by
  rw [Finset.sum_boole]
  norm_num
  have hcard : (Finset.univ.filter fun i : Fin r => (i : ℕ) < k).card = k := by
    rw [Finset.card_filter]
    rw [Fin.sum_univ_eq_sum_range (fun n => if n < k then 1 else 0) r]
    have h2 : ∀ n ∈ Finset.range r,
        (if n < k then 1 else 0) = if n ∈ Finset.range k then 1 else 0 := by
      intro n _
      simp [Finset.mem_range]
    rw [Finset.sum_congr rfl h2, Finset.sum_ite_mem]
    have h3 : Finset.range r ∩ Finset.range k = Finset.range k := by
      rw [Finset.inter_eq_right]
      exact Finset.range_subset.mpr (le_of_lt hk)
    rw [h3]
    simp
  rw [hcard]

theorem sum_mul_le_front {r k : ℕ} (t c : Fin r → ℝ)
    (ht0 : ∀ i, 0 ≤ t i)
    (hmono : ∀ i j : Fin r, (i : ℕ) ≤ (j : ℕ) → t j ≤ t i)
    (hc0 : ∀ i, 0 ≤ c i) (hc1 : ∀ i, c i ≤ 1)
    (hcsum : ∑ i, c i ≤ (k : ℝ)) :
    ∑ i, t i * c i ≤ ∑ i : Fin r, if (i : ℕ) < k then t i else 0 := by
  by_cases hkr : r ≤ k
  · have hall : ∀ i : Fin r, (if (i : ℕ) < k then t i else 0) = t i := by
      intro i
      rw [if_pos (lt_of_lt_of_le i.isLt hkr)]
    rw [Finset.sum_congr rfl fun i _ => hall i]
    apply Finset.sum_le_sum
    intro i _
    calc t i * c i ≤ t i * 1 := mul_le_mul_of_nonneg_left (hc1 i) (ht0 i)
      _ = t i := mul_one _
  · push_neg at hkr
    have hτ0 : 0 ≤ t ⟨k, hkr⟩ := ht0 _
    have key : ∀ i : Fin r, t i * c i
        ≤ (if (i : ℕ) < k then t i else 0)
          + t ⟨k, hkr⟩ * (c i - if (i : ℕ) < k then 1 else 0) := by
      intro i
      by_cases hi : (i : ℕ) < k
      · rw [if_pos hi, if_pos hi]
        have hti : t ⟨k, hkr⟩ ≤ t i := hmono i ⟨k, hkr⟩ (le_of_lt hi)
        nlinarith [hc1 i, ht0 i]
      · rw [if_neg hi, if_neg hi]
        have hti : t i ≤ t ⟨k, hkr⟩ := hmono ⟨k, hkr⟩ i (le_of_not_lt hi)
        have hci := hc0 i
        nlinarith
    calc ∑ i, t i * c i
        ≤ ∑ i : Fin r, ((if (i : ℕ) < k then t i else 0)
          + t ⟨k, hkr⟩ * (c i - if (i : ℕ) < k then 1 else 0)) :=
          Finset.sum_le_sum fun i _ => key i
      _ = (∑ i : Fin r, if (i : ℕ) < k then t i else 0)
          + t ⟨k, hkr⟩ * ((∑ i, c i)
            - ∑ i : Fin r, if (i : ℕ) < k then (1 : ℝ) else 0) := by
          rw [Finset.sum_add_distrib, ← Finset.mul_sum,
            Finset.sum_sub_distrib]
      _ ≤ ∑ i : Fin r, if (i : ℕ) < k then t i else 0 := by
          rw [count_front hkr]
          nlinarith [hτ0, hcsum]

theorem frobSq_projT_le {d m k : ℕ} (T : SVDTriple d m (min d m))
    (X : Matrix (Fin d) (Fin m) ℝ)
    (P : Matrix (Fin d) (Fin k) ℝ) (hP : P.transpose * P = 1)
    (hU : T.U.transpose * T.U = 1) (hV : T.Vh * T.Vh.transpose = 1)
    (hs0 : ∀ i, 0 ≤ T.s i)
    (hmono : ∀ i j : Fin (min d m), (i : ℕ) ≤ (j : ℕ) → T.s j ≤ T.s i)
    (hrec : X = T.U * Matrix.diagonal T.s * T.Vh) :
    frobSq (P.transpose * X)
      ≤ ∑ i : Fin (min d m), if (i : ℕ) < k then T.s i ^ 2 else 0 := by
  set M := (T.U.transpose * P) * (P.transpose * T.U) with hM
  have hMdiag : ∀ i, M i i = ((T.U.transpose * P) * (P.transpose * T.U)) i i :=
    fun i => by rw [hM]
  have step1 : frobSq (P.transpose * X)
      = ∑ i : Fin (min d m), T.s i ^ 2 * M i i := by
    rw [frobSq_eq_trace]
    have hform : (P.transpose * X).transpose * (P.transpose * X)
        = T.Vh.transpose
          * ((Matrix.diagonal T.s * M * Matrix.diagonal T.s) * T.Vh) := by
      rw [hrec]
      simp only [hM, Matrix.transpose_mul, Matrix.transpose_transpose,
        Matrix.diagonal_transpose, Matrix.mul_assoc]
    rw [hform, Matrix.trace_mul_comm,
      Matrix.mul_assoc (Matrix.diagonal T.s * M * Matrix.diagonal T.s)
        T.Vh T.Vh.transpose,
      hV, Matrix.mul_one, Matrix.trace]
    simp only [Matrix.diag_apply, Matrix.mul_diagonal, Matrix.diagonal_mul]
    refine Finset.sum_congr rfl fun i _ => ?_
    ring
  rw [step1]
  have hcsum : (∑ i : Fin (min d m), M i i) ≤ (k : ℝ) := by
    have : (∑ i : Fin (min d m), M i i) = Matrix.trace M := by
      rw [Matrix.trace]
      rfl
    rw [this, hM]
    exact contraction_trace_le T.U P hU hP
  exact sum_mul_le_front (fun i => T.s i ^ 2) (fun i => M i i)
    (fun i => sq_nonneg _)
    (fun i j hij => pow_le_pow_left₀ (hs0 j) (hmono i j hij) 2)
    (fun i => contraction_diag_nonneg T.U P i)
    (fun i => contraction_diag_le_one T.U P hP i
      (by rw [hU]; exact Matrix.one_apply_eq i))
    hcsum

theorem rank_factorization {d m : ℕ} (B : Matrix (Fin d) (Fin m) ℝ) :
    ∃ (P : Matrix (Fin d) (Fin B.rank) ℝ) (C : Matrix (Fin B.rank) (Fin m) ℝ),
      P.transpose * P = 1 ∧ B = P * C := by
  classical
  let e : EuclideanSpace ℝ (Fin d) ≃ₗ[ℝ] (Fin d → ℝ) :=
    WithLp.linearEquiv 2 ℝ (Fin d → ℝ)
  let W0 : Submodule ℝ (Fin d → ℝ) := LinearMap.range B.mulVecLin
  let W : Submodule ℝ (EuclideanSpace ℝ (Fin d)) := W0.comap e.toLinearMap
  have hfin : Module.finrank ℝ W = B.rank := by
    have h1 : W = Submodule.map
        (e.symm : (Fin d → ℝ) →ₗ[ℝ] EuclideanSpace ℝ (Fin d)) W0 :=
      Submodule.comap_equiv_eq_map_symm e W0
    rw [h1, LinearEquiv.finrank_map_eq]
    rfl
  let osb : OrthonormalBasis (Fin B.rank) ℝ W :=
    (stdOrthonormalBasis ℝ W).reindex (finCongr hfin)
  let P : Matrix (Fin d) (Fin B.rank) ℝ :=
    fun i j => ((osb j : EuclideanSpace ℝ (Fin d)) : Fin d → ℝ) i
  have hPP : P.transpose * P = 1 := by
    ext j l
    rw [Matrix.mul_apply]
    simp only [Matrix.transpose_apply]
    have hinner : (inner (osb j) (osb l) : ℝ) = if j = l then (1:ℝ) else 0 :=
      orthonormal_iff_ite.mp osb.orthonormal j l
    rw [Submodule.coe_inner] at hinner
    rw [PiLp.inner_apply] at hinner
    simp only [RCLike.inner_apply, conj_trivial] at hinner
    rw [Matrix.one_apply]
    rw [← hinner]
  have hmem : ∀ c : Fin m, e.symm (fun i => B i c) ∈ W := by
    intro c
    have h0 : (fun i => B i c) ∈ W0 := by
      refine ⟨Pi.single c 1, ?_⟩
      rw [Matrix.mulVecLin_apply, Matrix.mulVec_single]
      funext i
      rw [mul_one]
    have h1 : e (e.symm (fun i => B i c)) = (fun i => B i c) :=
      e.apply_symm_apply _
    exact Submodule.mem_comap.mpr (by
      rw [show e.toLinearMap (e.symm fun i => B i c) = (fun i => B i c)
        from h1]
      exact h0)
  let colW : Fin m → W := fun c => ⟨e.symm (fun i => B i c), hmem c⟩
  let C : Matrix (Fin B.rank) (Fin m) ℝ := fun j c => osb.repr (colW c) j
  refine ⟨P, C, hPP, ?_⟩
  ext i c
  rw [Matrix.mul_apply]
  have hexp := osb.sum_repr (colW c)
  have hcoe : ((∑ j, osb.repr (colW c) j • osb j : W) : EuclideanSpace ℝ (Fin d))
      = ((colW c : W) : EuclideanSpace ℝ (Fin d)) := by rw [hexp]
  have happ : (∑ j, osb.repr (colW c) j • (osb j : EuclideanSpace ℝ (Fin d))) i
      = ((colW c : W) : EuclideanSpace ℝ (Fin d)) i := by
    rw [← hcoe]
    norm_cast
  have hsum : (∑ j, osb.repr (colW c) j • (osb j : EuclideanSpace ℝ (Fin d))) i
      = ∑ j, osb.repr (colW c) j
        * ((osb j : EuclideanSpace ℝ (Fin d)) : Fin d → ℝ) i := by
    rw [Finset.sum_apply]
    simp [Pi.smul_apply, smul_eq_mul]
  have hcol : ((colW c : W) : EuclideanSpace ℝ (Fin d)) i = B i c := rfl
  have hBic : (∑ j, osb.repr (colW c) j
      * ((osb j : EuclideanSpace ℝ (Fin d)) : Fin d → ℝ) i) = B i c := by
    rw [← hsum, happ, hcol]
  rw [← hBic]
  refine Finset.sum_congr rfl fun j _ => ?_
  exact mul_comm _ _

theorem isEconomySVD_decomp2 :
    IsEconomySVD (svdInput rval2) (decomp2 (svdInput rval2)) := by
  refine ⟨fun i => by norm_num [decomp2, triv1], fun i j hij => le_refl _,
    ?_, ?_, ?_⟩
  · simp [decomp2, triv1]
  · simp [decomp2, triv1]
  · simp only [decomp2, triv1, Matrix.one_mul, Matrix.mul_one]
    ext i j
    fin_cases i
    fin_cases j
    simp [svdInput, rval2, RVal.val, Matrix.diagonal]

/-- Claim C1: for every d × m input with positive dimensions and finite
entries, the SVD Engine returns a triple in economy form: U has shape
d × r, s has length r, Vh has shape r × m with r = min d m, and when d ≠ m
the full d × d and m × m orthogonal factors are not both present. -/
theorem c1_engine_economy_form {d m : ℕ}
    (decomp : Matrix (Fin d) (Fin m) ℝ → SVDTriple d m (min d m))
    (X : Matrix (Fin d) (Fin m) RVal) (hd : 0 < d) (hm : 0 < m)
    (hfin : ∀ i j, (X i j).isFinite = true) :
    ∃ T, svdEngine decomp X = Except.ok T ∧
      T.uShape = (d, min d m) ∧ T.sLength = min d m ∧
      T.vhShape = (min d m, m) ∧
      (d ≠ m → ¬(T.uShape = (d, d) ∧ T.vhShape = (m, m))) := by
  refine ⟨decomp (svdInput X), svdEngine_ok_of_valid decomp X hd hm hfin,
    rfl, rfl, rfl, ?_⟩
  intro hdm hcon
  obtain ⟨h1, h2⟩ := hcon
  have e1 : min d m = d := congrArg Prod.snd h1
  have e2 : min d m = m := congrArg Prod.fst h2
  omega

/-- Witness for C1 at a concrete finite 1 × 2 input. -/
theorem c1_engine_economy_form_witness :
    ∃ T, svdEngine decompA rvalOnes12 = Except.ok T ∧
      T.uShape = (1, min 1 2) ∧ T.sLength = min 1 2 ∧
      T.vhShape = (min 1 2, 2) ∧
      ((1 : ℕ) ≠ 2 → ¬(T.uShape = (1, 1) ∧ T.vhShape = (2, 2))) :=
  c1_engine_economy_form decompA rvalOnes12 (by decide) (by decide)
    (by decide)

/-- Claim C3: an input containing a non-finite entry (such as NaN) or having
a zero dimension makes the SVD Engine fail with InvalidInputError instead of
returning a decomposition. -/
theorem c3_engine_rejects_invalid {d m : ℕ}
    (decomp : Matrix (Fin d) (Fin m) ℝ → SVDTriple d m (min d m))
    (X : Matrix (Fin d) (Fin m) RVal)
    (h : d = 0 ∨ m = 0 ∨ ∃ i j, (X i j).isFinite = false) :
    svdEngine decomp X = Except.error PCAError.invalidInputError := by
  unfold svdEngine
  by_cases hdm : 0 < d ∧ 0 < m
  · have hnot : ¬ ∀ i j, (X i j).isFinite = true := by
      rcases h with h | h | ⟨i, j, hij⟩
      · exact absurd h (by omega)
      · exact absurd h (by omega)
      · intro hall
        rw [hall i j] at hij
        exact Bool.noConfusion hij
    rw [if_pos hdm, if_neg hnot]
  · rw [if_neg hdm]

/-- Witness for C3 at a concrete 1 × 1 input whose entry is NaN. -/
theorem c3_engine_rejects_invalid_witness :
    svdEngine decomp2 rvalNan = Except.error PCAError.invalidInputError :=
  c3_engine_rejects_invalid decomp2 rvalNan (Or.inr (Or.inr ⟨0, 0, rfl⟩))

/-- Claim C4: whenever the SVD Engine returns a triple and the underlying
decomposition routine meets the economy-SVD contract on the engine input,
the singular-value vector is entrywise nonnegative and each entry dominates
the next. -/
theorem c4_singular_values_descending {d m : ℕ}
    (decomp : Matrix (Fin d) (Fin m) ℝ → SVDTriple d m (min d m))
    (X : Matrix (Fin d) (Fin m) RVal) (T : SVDTriple d m (min d m))
    (hok : svdEngine decomp X = Except.ok T)
    (hdec : IsEconomySVD (svdInput X) (decomp (svdInput X))) :
    (∀ i, 0 ≤ T.s i) ∧
    (∀ i : Fin (min d m), ∀ hi : (i : ℕ) + 1 < min d m,
      T.s ⟨(i : ℕ) + 1, hi⟩ ≤ T.s i) := by
  have hT := svdEngine_ok_inv hok
  subst hT
  obtain ⟨h1, h2, _, _, _⟩ := hdec
  exact ⟨h1, fun i hi => h2 i ⟨(i : ℕ) + 1, hi⟩ (Nat.le_succ _)⟩

/-- Witness for C4 at the concrete 1 × 1 input with entry 2. -/
theorem c4_singular_values_descending_witness :
    (∀ i, 0 ≤ triv1.s i) ∧
    (∀ i : Fin (min 1 1), ∀ hi : (i : ℕ) + 1 < min 1 1,
      triv1.s ⟨(i : ℕ) + 1, hi⟩ ≤ triv1.s i) :=
  c4_singular_values_descending decomp2 rval2 triv1
    (svdEngine_ok_of_valid decomp2 rval2 (by decide) (by decide) (by decide))
    isEconomySVD_decomp2

/-- Claim C6: whenever the SVD Engine returns a triple and the underlying
decomposition routine meets the economy-SVD contract on the engine input,
the triple reconstructs the input within any nonnegative tolerance ε in
Frobenius norm, relative to the norm of the input. -/
theorem c6_engine_reconstruction {d m : ℕ}
    (decomp : Matrix (Fin d) (Fin m) ℝ → SVDTriple d m (min d m))
    (X : Matrix (Fin d) (Fin m) RVal) (T : SVDTriple d m (min d m))
    (ε : ℝ) (hε : 0 ≤ ε)
    (hok : svdEngine decomp X = Except.ok T)
    (hdec : IsEconomySVD (svdInput X) (decomp (svdInput X))) :
    frobeniusNorm (svdInput X - T.U * Matrix.diagonal T.s * T.Vh) ≤
      ε * frobeniusNorm (svdInput X) := by
  have hT := svdEngine_ok_inv hok
  subst hT
  obtain ⟨_, _, _, _, hrec⟩ := hdec
  rw [← hrec, sub_self, frobeniusNorm_zero]
  exact mul_nonneg hε (frobeniusNorm_nonneg _)

/-- Witness for C6 at the concrete 1 × 1 input with entry 2, ε = 1. -/
theorem c6_engine_reconstruction_witness :
    frobeniusNorm (svdInput rval2 - triv1.U * Matrix.diagonal triv1.s * triv1.Vh) ≤
      1 * frobeniusNorm (svdInput rval2) :=
  c6_engine_reconstruction decomp2 rval2 triv1 1 (by norm_num)
    (svdEngine_ok_of_valid decomp2 rval2 (by decide) (by decide) (by decide))
    isEconomySVD_decomp2

/-- Claim C7: whenever the SVD Engine returns a triple and the underlying
decomposition routine meets the economy-SVD contract on the engine input,
U and Vh are orthonormal on their short axes within any nonnegative
tolerance ε in Frobenius norm. -/
theorem c7_engine_orthonormal {d m : ℕ}
    (decomp : Matrix (Fin d) (Fin m) ℝ → SVDTriple d m (min d m))
    (X : Matrix (Fin d) (Fin m) RVal) (T : SVDTriple d m (min d m))
    (ε : ℝ) (hε : 0 ≤ ε)
    (hok : svdEngine decomp X = Except.ok T)
    (hdec : IsEconomySVD (svdInput X) (decomp (svdInput X))) :
    frobeniusNorm (T.U.transpose * T.U - 1) ≤ ε ∧
    frobeniusNorm (T.Vh * T.Vh.transpose - 1) ≤ ε := by
  have hT := svdEngine_ok_inv hok
  subst hT
  obtain ⟨_, _, hU, hV, _⟩ := hdec
  constructor
  · rw [hU, sub_self, frobeniusNorm_zero]
    exact hε
  · rw [hV, sub_self, frobeniusNorm_zero]
    exact hε

/-- Witness for C7 at the concrete 1 × 1 input with entry 2, ε = 1. -/
theorem c7_engine_orthonormal_witness :
    frobeniusNorm (triv1.U.transpose * triv1.U - 1) ≤ 1 ∧
    frobeniusNorm (triv1.Vh * triv1.Vh.transpose - 1) ≤ 1 :=
  c7_engine_orthonormal decomp2 rval2 triv1 1 (by norm_num)
    (svdEngine_ok_of_valid decomp2 rval2 (by decide) (by decide) (by decide))
    isEconomySVD_decomp2

/-- Claim C8 (Eckart–Young): whenever the SVD Engine returns a triple from a
decomposition routine meeting the economy-SVD contract, for every k with
1 ≤ k ≤ r the rank-k truncation built from the top-k singular triples has
Frobenius reconstruction error at most that of any matrix of rank ≤ k. -/
theorem c8_eckart_young {d m : ℕ}
    (decomp : Matrix (Fin d) (Fin m) ℝ → SVDTriple d m (min d m))
    (X : Matrix (Fin d) (Fin m) RVal) (T : SVDTriple d m (min d m))
    (k : ℕ) (hk1 : 1 ≤ k) (hkr : k ≤ min d m)
    (hok : svdEngine decomp X = Except.ok T)
    (hdec : IsEconomySVD (svdInput X) (decomp (svdInput X)))
    (B : Matrix (Fin d) (Fin m) ℝ) (hB : B.rank ≤ k) :
    frobeniusNorm (svdInput X - truncTriple T k)
      ≤ frobeniusNorm (svdInput X - B) := by
  have hT := svdEngine_ok_inv hok
  rw [← hT] at hdec
  obtain ⟨hs0, hmono, hU, hV, hrec⟩ := hdec
  apply frobeniusNorm_mono
  -- the truncation error is the tail sum of squared singular values
  rw [frobSq_sub_trunc _ _ k hU hV hrec]
  -- the total energy is the full sum of squared singular values
  have hX2 : frobSq (svdInput X) = ∑ i, T.s i ^ 2 := by
    rw [hrec, frobSq_unitary_conj _ _ _ hU hV, frobSq_diagonal]
  -- pointwise tail identity
  have htail : ∀ i : Fin (min d m),
      (if (i : ℕ) < k then 0 else T.s i) ^ 2
        = T.s i ^ 2 - (if (i : ℕ) < k then T.s i ^ 2 else 0) := by
    intro i
    by_cases hi : (i : ℕ) < k
    · simp [hi]
    · simp [hi]
  rw [Finset.sum_congr rfl fun i _ => htail i, Finset.sum_sub_distrib]
  -- factor B through a matrix with orthonormal columns
  obtain ⟨P, C, hPP, hBPC⟩ := rank_factorization B
  have hpyth : frobSq (svdInput X - B)
      = frobSq (svdInput X - P * (P.transpose * svdInput X))
        + frobSq (P * (P.transpose * svdInput X - C)) := by
    rw [show svdInput X - B = svdInput X - P * C from
      congrArg (fun M => svdInput X - M) hBPC]
    exact frobSq_pythagoras (svdInput X) P C hPP
  have hproj : frobSq (svdInput X - P * (P.transpose * svdInput X))
      = frobSq (svdInput X) - frobSq (P.transpose * svdInput X) :=
    frobSq_sub_proj (svdInput X) P hPP
  have hbound : frobSq (P.transpose * svdInput X)
      ≤ ∑ i : Fin (min d m), if (i : ℕ) < B.rank then T.s i ^ 2 else 0 :=
    frobSq_projT_le T (svdInput X) P hPP hU hV hs0 hmono hrec
  have hmonok : (∑ i : Fin (min d m), if (i : ℕ) < B.rank then T.s i ^ 2 else 0)
      ≤ ∑ i : Fin (min d m), if (i : ℕ) < k then T.s i ^ 2 else 0 := by
    apply Finset.sum_le_sum
    intro i _
    by_cases hi : (i : ℕ) < B.rank
    · rw [if_pos hi, if_pos (lt_of_lt_of_le hi hB)]
    · rw [if_neg hi]
      by_cases hik : (i : ℕ) < k
      · rw [if_pos hik]; exact sq_nonneg _
      · rw [if_neg hik]
  have hfnonneg := frobSq_nonneg (P * (P.transpose * svdInput X - C))
  rw [← hX2]
  linarith

/-- Witness for C8 at the concrete 1 × 1 input with entry 2, k = 1 and the
zero matrix as competitor. -/
theorem c8_eckart_young_witness :
    frobeniusNorm (svdInput rval2 - truncTriple triv1 1)
      ≤ frobeniusNorm (svdInput rval2 - 0) :=
  c8_eckart_young decomp2 rval2 triv1 1 (by decide) (by decide)
    (svdEngine_ok_of_valid decomp2 rval2 (by decide) (by decide) (by decide))
    isEconomySVD_decomp2 0 (by rw [Matrix.rank_zero]; exact Nat.zero_le 1)

end CDS
